import Mathlib

/-!
Shallow embedding of the `ada` question/answer enrichment pipeline
(`src/main.rs`): an incremental embedding-enrichment pipeline (`brew`),
its batch scheduler (`get_embeddings`), the token-guarded provider
client (`get_embedding`) and the vector similarity search (`search`).

Modelling conventions:
- Machine floats (`f32`/`f64`) are modelled as `ℚ`; the claims under
  study concern only equality and order of scores, not rounding.
- The two external effects — the `cl100k_base` tokenizer's count and
  the OpenAI embeddings endpoint — are fields of an `Env` record.
  `Env.provider t = none` covers every provider-side failure: network
  or auth error (`.map_err ... .ok()?`), a malformed request
  (`.build().ok()?`) and an empty `data` array (`.pop()?`).
- A Rust panic (`unwrap`/`expect` on a null) is modelled by the
  function returning `none` at the top level; `some` results are the
  non-panicking executions.
- Alongside its value, each embedding routine returns the list of
  texts actually sent to the external provider, so that "the provider
  is never invoked" claims are statable.
- Nullable Polars columns are `Option` fields; Polars boolean columns
  use Kleene logic, embedded explicitly (`kleeneAnd`).
-/

namespace Ada

/-- Token ceiling, `MAX_TOKEN` in main.rs. -/
def MAX_TOKEN : Nat := 8100

/-- Scheduler chunk size, `CHUNK_SIZE` in main.rs. -/
def CHUNK_SIZE : Nat := 256

/-- The tag allow-list. In main.rs `TAGS` is a single regex that is an
alternation of these five literals (none of which contains a regex
metacharacter), so `col("tags").str().contains(TAGS)` holds exactly when
the tags string has one of them as a substring. -/
def TAGS : List String :=
  ["<quantum-mechanics>", "<statistical-mechanics>", "<thermodynamics>",
   "<electromagnetism>", "<electrodynamics>"]

/-- URL prepended to `id` in the search output (`lit("https://...")` in
`search`). -/
def QUESTION_URL : String := "https://physics.stackexchange.com/questions/"

/-- The two external dependencies of the program: the tokenizer's count
function (`tiktoken_rs::cl100k_base`, `encode_ordinary(..).len()`), and
the embeddings endpoint, where `none` stands for any provider failure
or empty response. Both are pure functions of the text: the run under
study holds the external world fixed ("the provider behaving
identically"). -/
structure Env where
  tok : String → Nat
  provider : String → Option (List ℚ)

/-- One row of the corpus parquet file: columns `id`, `title`, `body`,
`tags`, `embeddings`. All payload columns are nullable in the store,
hence `Option`. -/
structure Record where
  id : Nat
  title : Option String
  body : Option String
  tags : Option String
  embeddings : Option (List ℚ)
deriving DecidableEq, Repr

/-- Does `needle` occur as a prefix of `hay`? (Helper for the substring
check that embeds the `TAGS` regex alternation.) -/
def listStarts : List Char → List Char → Bool
  | [], _ => true
  | _ :: _, [] => false
  | a :: as, b :: bs => a == b && listStarts as bs

/-- Does `needle` occur as a contiguous substring of `hay`? -/
def hasSubstr (needle : List Char) : List Char → Bool
  | [] => needle.isEmpty
  | c :: rest => listStarts needle (c :: rest) || hasSubstr needle rest

/-- Polars Kleene three-valued AND on nullable booleans, as used by
`.and(..)` on expression columns: false dominates, null is absorbing
otherwise. -/
def kleeneAnd : Option Bool → Option Bool → Option Bool
  | some false, _ => some false
  | _, some false => some false
  | some true, some true => some true
  | _, _ => none

/-- The `col("tags").str().contains(lit(TAGS), false)` expression: null
on a null tags column, otherwise whether any allow-listed tag occurs in
the string. -/
def tagsMatch (r : Record) : Option Bool :=
  r.tags.map fun s => TAGS.any fun t => hasSubstr t.toList s.toList

/-- The `filtering` expression of `brew`:
`tags.contains(TAGS).and(embeddings.is_null())`. `is_null` is never
null, so the only null source is a null tags column. -/
def filtering (r : Record) : Option Bool :=
  kleeneAnd (tagsMatch r) (some r.embeddings.isNone)

/-- The `combined` column of `brew`:
`lit("Title: ") + col("title") + lit(" Body: ") + col("body")`. Polars
string concatenation with a null operand is null. -/
def combined (r : Record) : Option String :=
  match r.title, r.body with
  | some t, some b => some ("Title: " ++ t ++ " Body: " ++ b)
  | _, _ => none

/-- The `get_embedding` routine: token-guard, then a single provider
call. Returns the embedding (or `none` for a skip/failure) together
with the list of texts sent to the provider. -/
def get_embedding (env : Env) (input : String) : Option (List ℚ) × List String :=
  if MAX_TOKEN < env.tok input then (none, [])
  else (env.provider input, [input])

/-- One element of the scheduler's zipped `(combined, mask)` iteration:
`none` is a panic (`expect("mask must be non-null")` on a null mask, or
`text.unwrap()` on a null text under a true mask); a false mask skips
the provider and resolves to absent. -/
def embedElem (env : Env) :
    Option String × Option Bool → Option (Option (List ℚ) × List String)
  | (_, none) => none
  | (_, some false) => some (none, [])
  | (none, some true) => none
  | (some t, some true) => some (get_embedding env t)

/-- Sequential denotation of processing a list of elements in input
order, aborting on the first panic and concatenating provider-call
logs. Awaiting the spawned handles of a chunk in spawn order yields
exactly this value order. -/
def embedAll (f : α → Option (β × List String)) :
    List α → Option (List β × List String)
  | [] => some ([], [])
  | x :: xs =>
    match f x, embedAll f xs with
    | some (b, cs), some (bs, css) => some (b :: bs, cs ++ css)
    | _, _ => none

/-- The chunked loop of `get_embeddings`: `zipped.chunks(CHUNK_SIZE)`,
each chunk fully resolved (all handles spawned then awaited in order)
before the next chunk starts. -/
def runChunks (f : α → Option (β × List String)) (l : List α) :
    Option (List β × List String) :=
  match l with
  | [] => some ([], [])
  | x :: xs =>
    match embedAll f (List.take CHUNK_SIZE (x :: xs)),
        runChunks f (List.drop CHUNK_SIZE (x :: xs)) with
    | some (bs, cs), some (bs2, cs2) => some (bs ++ bs2, cs ++ cs2)
    | _, _ => none
termination_by l.length
decreasing_by simp [CHUNK_SIZE]; omega

/-- The `get_embeddings` batch scheduler: zip the text column with the
mask column (the zip of the two series iterators stops at the shorter
column) and process in chunks of `CHUNK_SIZE`. -/
def get_embeddings (env : Env) (texts : List (Option String))
    (mask : List (Option Bool)) : Option (List (Option (List ℚ)) × List String) :=
  runChunks (embedElem env) (texts.zip mask)

/-- Polars `coalesce(&[a, b])`: first non-null wins, per row. -/
def coalesce (a b : Option α) : Option α :=
  match a with
  | some v => some v
  | none => b

/-- The pre-check of `brew`: is the frame filtered by `filtering`
empty (`height() == 0`)? -/
def worksetEmpty (corpus : List Record) : Bool :=
  (corpus.filter fun r => filtering r == some true).length == 0

/-- The `brew` enrichment pipeline on a corpus read wholesale from the
store: short-circuit when no row is eligible-and-absent, otherwise
build `combined` and `mask` columns, run the scheduler, coalesce the
fresh column under the stored one, and keep exactly the five persisted
columns. Returns the written corpus and the provider-call log, or
`none` when the scheduler panicked. -/
def brew (env : Env) (corpus : List Record) :
    Option (List Record × List String) :=
  if worksetEmpty corpus then
    some (corpus, [])
  else
    match get_embeddings env (corpus.map combined) (corpus.map filtering) with
    | none => none
    | some (updates, calls) =>
      some (((corpus.zip updates).map fun ru =>
        { ru.1 with embeddings := coalesce ru.1.embeddings ru.2 }), calls)

/-- Dot product of two vectors, `Series::dot`; zips positionally. -/
def dot (a b : List ℚ) : ℚ :=
  (List.zipWith (fun x y => x * y) a b).sum

/-- The `score` column of `search`: null embedding gives a null score
(`apply_nonnull_values_generic`), otherwise the dot product with the
query embedding. -/
def scoreOf (qv : List ℚ) (r : Record) : Option ℚ :=
  r.embeddings.map fun e => dot e qv

/-- The comparator realised by
`sort("score", descending: true, nulls_last: true)`: scores descending,
null after every non-null. -/
def scoreLe (a b : Option ℚ) : Bool :=
  match a, b with
  | some x, some y => decide (y ≤ x)
  | some _, none => true
  | none, some _ => false
  | none, none => true

/-- The sort relation on scored rows. Polars' sort guarantees exactly a
sorted permutation (ties in unspecified order); any sort by `scoreLe`
realises it. -/
def scoreRel (p q : Record × Option ℚ) : Prop :=
  scoreLe p.2 q.2 = true

instance : DecidableRel scoreRel := fun p q =>
  Bool.decEq (scoreLe p.2 q.2) true

/-- The scored and sorted frame of `search`, before column selection:
every record paired with its (nullable) score, sorted descending with
nulls last. -/
def rankRows (qv : List ℚ) (corpus : List Record) : List (Record × Option ℚ) :=
  List.insertionSort scoreRel (corpus.map fun r => (r, scoreOf qv r))

/-- One displayed result row after `select([cols(["id", "title",
"score"])])`. -/
structure Row where
  id : String
  title : Option String
  score : Option ℚ
deriving DecidableEq, Repr

/-- Column selection of `search`: the `id` becomes the fully qualified
question URL. -/
def toRow (p : Record × Option ℚ) : Row :=
  { id := QUESTION_URL ++ toString p.1.id, title := p.1.title, score := p.2 }

/-- The `search` command: embed the query through the same token-guarded
client (`get_embedding(text).await.unwrap()` — a `none` query embedding
panics the request, modelled as `none`: no rows are produced), then
score, sort and display the head of 20 rows. -/
def search (env : Env) (corpus : List Record) (text : String) :
    Option (List Row) :=
  match (get_embedding env text).1 with
  | none => none
  | some qv => some (((rankRows qv corpus).map toRow).take 20)

/-- The value an element of the scheduler's zipped input resolves to on
a non-panicking run: absent unless masked, else the token-guarded
provider result. -/
def elemVal (env : Env) : Option String × Option Bool → Option (List ℚ)
  | (some t, some true) => (get_embedding env t).1
  | _ => none

/-- The `(combined, mask)` pair `brew` feeds the scheduler for a row. -/
def rowPair (r : Record) : Option String × Option Bool :=
  (combined r, filtering r)

/-- The row `brew` writes back for an input row on a non-panicking,
non-short-circuited run: the coalesce of the stored embedding with the
freshly computed one. -/
def rowNext (env : Env) (r : Record) : Record :=
  { r with embeddings := coalesce r.embeddings (elemVal env (rowPair r)) }

/-- Processing an appended list chunk-free splits into processing the
parts and concatenating. -/
theorem embedAll_append (f : α → Option (β × List String)) (l₁ l₂ : List α) :
    embedAll f (l₁ ++ l₂) =
      match embedAll f l₁, embedAll f l₂ with
      | some (b1, c1), some (b2, c2) => some (b1 ++ b2, c1 ++ c2)
      | _, _ => none := by
  induction l₁ with
  | nil =>
    rcases h : embedAll f l₂ with _ | ⟨b2, c2⟩ <;> simp [embedAll, h]
  | cons x xs ih =>
    rcases hfx : f x with _ | ⟨b, cs⟩ <;>
      rcases hxs : embedAll f xs with _ | ⟨bs, css⟩ <;>
        rcases hl2 : embedAll f l₂ with _ | ⟨bs2, css2⟩ <;>
          simp [embedAll, hfx, hxs, hl2, ih]

/-- The chunked loop computes the chunk-free sequential denotation: the
chunk barrier affects only timing, not values. -/
theorem runChunks_eq (f : α → Option (β × List String)) (l : List α) :
    runChunks f l = embedAll f l := by
  have H : ∀ (n : ℕ) (l : List α), l.length ≤ n → runChunks f l = embedAll f l := by
    intro n
    induction n with
    | zero =>
      intro l hl
      have hnil : l = [] := List.length_eq_zero.mp (Nat.le_zero.mp hl)
      subst hnil
      rw [runChunks]
      rfl
    | succ n ih =>
      intro l hl
      cases l with
      | nil =>
        rw [runChunks]
        rfl
      | cons x xs =>
        rw [runChunks]
        rw [ih (List.drop CHUNK_SIZE (x :: xs))
          (by simp only [List.length_drop, List.length_cons, CHUNK_SIZE] at hl ⊢; omega)]
        conv_rhs => rw [← List.take_append_drop CHUNK_SIZE (x :: xs)]
        rw [embedAll_append]
  exact H l.length l le_rfl

/-- The scheduler equals the sequential per-element denotation. -/
theorem get_embeddings_eq (env : Env) (texts : List (Option String))
    (mask : List (Option Bool)) :
    get_embeddings env texts mask = embedAll (embedElem env) (texts.zip mask) :=
  runChunks_eq _ _

/-- A non-panicking element resolves to `elemVal`. -/
theorem embedElem_some_val (env : Env) (p : Option String × Option Bool)
    (b : Option (List ℚ)) (cs : List String)
    (h : embedElem env p = some (b, cs)) : b = elemVal env p := by
  obtain ⟨t, m⟩ := p
  rcases t with _ | t <;> rcases m with _ | (_ | _) <;>
    simp_all [embedElem, elemVal]

/-- An element panics exactly when its mask is null, or it is masked
with a null text. -/
theorem embedElem_none_iff (env : Env) (p : Option String × Option Bool) :
    embedElem env p = none ↔ p.2 = none ∨ (p.2 = some true ∧ p.1 = none) := by
  obtain ⟨t, m⟩ := p
  rcases t with _ | t <;> rcases m with _ | (_ | _) <;>
    simp [embedElem]

/-- A successful batch has one output per input. -/
theorem embedAll_length (f : α → Option (β × List String)) {l : List α}
    {out : List β} {cs : List String} (h : embedAll f l = some (out, cs)) :
    out.length = l.length := by
  induction l generalizing out cs with
  | nil =>
    simp [embedAll] at h
    simp [← h.1]
  | cons x xs ih =>
    simp only [embedAll] at h
    rcases hfx : f x with _ | ⟨b, c⟩ <;>
      rcases hxs : embedAll f xs with _ | ⟨bs, css⟩ <;>
        rw [hfx, hxs] at h <;> simp at h
    obtain ⟨h1, -⟩ := h
    subst h1
    simp [ih hxs]

/-- In a successful batch, element `i` of the output is exactly what
`f` produced on element `i` of the input: positional alignment. -/
theorem embedAll_get (f : α → Option (β × List String)) {l : List α}
    {out : List β} {cs : List String} (h : embedAll f l = some (out, cs))
    (i : ℕ) (hi : i < l.length) :
    ∃ (ho : i < out.length) (ci : List String),
      f (l.get ⟨i, hi⟩) = some (out.get ⟨i, ho⟩, ci) := by
  induction l generalizing out cs i with
  | nil => simp at hi
  | cons x xs ih =>
    simp only [embedAll] at h
    rcases hfx : f x with _ | ⟨b, c⟩ <;>
      rcases hxs : embedAll f xs with _ | ⟨bs, css⟩ <;>
        rw [hfx, hxs] at h <;> simp at h
    obtain ⟨h1, -⟩ := h
    subst h1
    cases i with
    | zero => exact ⟨Nat.succ_pos _, c, hfx⟩
    | succ j =>
      obtain ⟨ho, ci, hci⟩ := ih hxs j (Nat.lt_of_succ_lt_succ hi)
      exact ⟨Nat.succ_lt_succ ho, ci, hci⟩

/-- A single panicking element aborts the whole batch. -/
theorem embedAll_none_of_mem (f : α → Option (β × List String)) {l : List α}
    {x : α} (hx : x ∈ l) (hfx : f x = none) : embedAll f l = none := by
  induction l with
  | nil => simp at hx
  | cons y ys ih =>
    rcases List.mem_cons.mp hx with rfl | hmem
    · simp [embedAll, hfx]
    · rcases hfy : f y with _ | ⟨b, c⟩ <;> simp [embedAll, hfy, ih hmem]

/-- If no element panics, the batch succeeds and the output column is
the per-element value, row by row. -/
theorem embedAll_total_val (env : Env) (l : List (Option String × Option Bool))
    (h : ∀ p ∈ l, embedElem env p ≠ none) :
    ∃ cs, embedAll (embedElem env) l = some (l.map (elemVal env), cs) := by
  induction l with
  | nil => exact ⟨[], rfl⟩
  | cons p ps ih =>
    obtain ⟨cs, hcs⟩ := ih fun q hq => h q (List.mem_cons_of_mem _ hq)
    rcases hfp : embedElem env p with _ | ⟨b, c⟩
    · exact absurd hfp (h p (List.mem_cons_self _ _))
    · refine ⟨c ++ cs, ?_⟩
      simp [embedAll, hfp, hcs, embedElem_some_val env p b c hfp]

/-- A successful batch determines its output column (`elemVal` per row)
and certifies that no element panicked. -/
theorem embedAll_some_val (env : Env) {l : List (Option String × Option Bool)}
    {out : List (Option (List ℚ))} {cs : List String}
    (h : embedAll (embedElem env) l = some (out, cs)) :
    out = l.map (elemVal env) ∧ ∀ p ∈ l, embedElem env p ≠ none := by
  have hok : ∀ p ∈ l, embedElem env p ≠ none := by
    intro p hp hpn
    rw [embedAll_none_of_mem _ hp hpn] at h
    exact Option.noConfusion h
  obtain ⟨cs', hcs'⟩ := embedAll_total_val env l hok
  rw [hcs'] at h
  simp at h
  exact ⟨h.1.symm, hok⟩

/-- Every text in the call log of a successful batch was contributed by
some input element. -/
theorem embedAll_calls (f : α → Option (β × List String)) {l : List α}
    {out : List β} {cs : List String} (h : embedAll f l = some (out, cs))
    {t : String} (ht : t ∈ cs) :
    ∃ x ∈ l, ∃ b ci, f x = some (b, ci) ∧ t ∈ ci := by
  induction l generalizing out cs with
  | nil =>
    simp [embedAll] at h
    obtain ⟨-, h2⟩ := h
    subst h2
    simp at ht
  | cons x xs ih =>
    simp only [embedAll] at h
    rcases hfx : f x with _ | ⟨b, c⟩ <;>
      rcases hxs : embedAll f xs with _ | ⟨bs, css⟩ <;>
        rw [hfx, hxs] at h <;> simp at h
    obtain ⟨-, hc⟩ := h
    rw [← hc] at ht
    rcases List.mem_append.mp ht with hin | hin
    · exact ⟨x, List.mem_cons_self _ _, b, c, hfx, hin⟩
    · obtain ⟨y, hy, b', ci, hci, hti⟩ := ih hxs hin
      exact ⟨y, List.mem_cons_of_mem _ hy, b', ci, hci, hti⟩

/-- Zipping a list with a map of itself pairs each element with its
image. -/
theorem zip_map_self (g : α → β) (l : List α) :
    l.zip (l.map g) = l.map fun a => (a, g a) := by
  induction l with
  | nil => rfl
  | cons x xs ih => simp [ih]

/-- The scheduler input columns of `brew`, zipped, are the per-row
`(combined, mask)` pairs. -/
theorem brew_pairs (corpus : List Record) :
    (corpus.map combined).zip (corpus.map filtering) = corpus.map rowPair :=
  List.zip_map' combined filtering corpus

/-- Kleene AND with a false right operand is false, whatever the left
operand (including null). -/
theorem kleeneAnd_false_right (x : Option Bool) :
    kleeneAnd x (some false) = some false := by
  rcases x with _ | (_ | _) <;> rfl

/-- Kleene AND with a true right operand is the left operand. -/
theorem kleeneAnd_true_right (x : Option Bool) :
    kleeneAnd x (some true) = x := by
  rcases x with _ | (_ | _) <;> rfl

/-- On a row that already has an embedding, `rowNext` keeps the row
unchanged, whatever the tags, eligibility or mask value. -/
theorem rowNext_of_some (env : Env) (r : Record) {v : List ℚ}
    (h : r.embeddings = some v) : rowNext env r = r := by
  have hc : coalesce r.embeddings (elemVal env (rowPair r)) = r.embeddings := by
    rw [h]
    rfl
  unfold rowNext
  rw [hc]

/-- If `brew` does not short-circuit and its scheduler run does not
panic, the written corpus is `rowNext` applied row by row. -/
theorem brew_run (env : Env) (corpus : List Record)
    (hw : worksetEmpty corpus = false)
    (hok : ∀ r ∈ corpus, embedElem env (rowPair r) ≠ none) :
    ∃ cs, brew env corpus = some (corpus.map (rowNext env), cs) := by
  obtain ⟨cs, hcs⟩ := embedAll_total_val env (corpus.map rowPair) (by
    intro p hp
    obtain ⟨r, hr, hrp⟩ := List.mem_map.mp hp
    exact hrp ▸ hok r hr)
  refine ⟨cs, ?_⟩
  unfold brew
  rw [hw]
  simp only [Bool.false_eq_true, if_false]
  rw [get_embeddings_eq, brew_pairs, hcs]
  simp only [List.map_map]
  rw [zip_map_self, List.map_map]
  rfl

/-- Exhaustive description of a non-panicking `brew` run: either the
workset was empty and nothing was touched, or every row was merged
through `rowNext` and no scheduler element panicked. -/
theorem brew_some_char (env : Env) (corpus out : List Record)
    (cs : List String) (h : brew env corpus = some (out, cs)) :
    (worksetEmpty corpus = true ∧ out = corpus ∧ cs = []) ∨
    (worksetEmpty corpus = false ∧ out = corpus.map (rowNext env) ∧
      ∀ r ∈ corpus, embedElem env (rowPair r) ≠ none) := by
  unfold brew at h
  cases hw : worksetEmpty corpus with
  | true =>
    rw [hw] at h
    simp at h
    exact Or.inl ⟨rfl, h.1.symm, h.2⟩
  | false =>
    rw [hw] at h
    simp only [Bool.false_eq_true, if_false] at h
    rw [get_embeddings_eq, brew_pairs] at h
    rcases hge : embedAll (embedElem env) (corpus.map rowPair)
        with _ | ⟨updates, cs'⟩ <;> rw [hge] at h <;> simp at h
    obtain ⟨hval, hok⟩ := embedAll_some_val env hge
    refine Or.inr ⟨rfl, ?_, fun r hr => hok _ (List.mem_map_of_mem _ hr)⟩
    rw [← h.1, hval, List.map_map, zip_map_self, List.map_map]
    rfl

/-- Whenever the merge leaves the embedding column of a row unchanged,
the row is written back identically. -/
theorem rowNext_self (env : Env) (r : Record)
    (h : coalesce r.embeddings (elemVal env (rowPair r)) = r.embeddings) :
    rowNext env r = r := by
  unfold rowNext
  rw [h]

/-- One enrichment step is a fixpoint row by row: a non-panicking row,
merged once, is merged to itself on the next run and cannot panic
again. -/
theorem rowNext_fix (env : Env) (r : Record)
    (hok : embedElem env (rowPair r) ≠ none) :
    rowNext env (rowNext env r) = rowNext env r ∧
    embedElem env (rowPair (rowNext env r)) ≠ none := by
  rcases hemb : r.embeddings with _ | v
  · have hf : filtering r = tagsMatch r := by
      unfold filtering
      rw [hemb]
      show kleeneAnd (tagsMatch r) (some true) = tagsMatch r
      exact kleeneAnd_true_right _
    rcases htm : tagsMatch r with _ | mb
    · exact absurd (by rw [embedElem_none_iff]; exact Or.inl (by simp [rowPair, hf, htm])) hok
    · cases mb
      · have hval : elemVal env (rowPair r) = none := by
          rcases hcb : combined r with _ | t <;> simp [elemVal, rowPair, hf, htm, hcb]
        have hr : rowNext env r = r := by
          refine rowNext_self env r ?_
          rw [hval, hemb]
          rfl
        rw [hr]
        exact ⟨hr, hok⟩
      · have hmask : filtering r = some true := hf.trans htm
        rcases hcb : combined r with _ | t
        · exact absurd (by
            rw [embedElem_none_iff]
            exact Or.inr ⟨by simp [rowPair, hmask], by simp [rowPair, hcb]⟩) hok
        · have hval : elemVal env (rowPair r) = (get_embedding env t).1 := by
            simp [elemVal, rowPair, hmask, hcb]
          rcases hge : (get_embedding env t).1 with _ | w
          · have hr : rowNext env r = r := by
              refine rowNext_self env r ?_
              rw [hval, hge, hemb]
              rfl
            rw [hr]
            exact ⟨hr, hok⟩
          · have hr' : (rowNext env r).embeddings = some w := by
              show coalesce r.embeddings (elemVal env (rowPair r)) = some w
              rw [hval, hge, hemb]
              rfl
            refine ⟨rowNext_of_some env (rowNext env r) hr', ?_⟩
            have hf' : filtering (rowNext env r) = some false := by
              unfold filtering
              rw [hr']
              exact kleeneAnd_false_right _
            intro hcon
            rw [embedElem_none_iff] at hcon
            simp [rowPair, hf'] at hcon
  · have hr : rowNext env r = r := rowNext_of_some env r hemb
    rw [hr]
    exact ⟨hr, hok⟩

/-- The score comparator is total. -/
theorem scoreLe_total (a b : Option ℚ) :
    scoreLe a b = true ∨ scoreLe b a = true := by
  rcases a with _ | x <;> rcases b with _ | y <;> simp [scoreLe]
  exact le_total y x

/-- The score comparator is transitive. -/
theorem scoreLe_trans {a b c : Option ℚ} (h1 : scoreLe a b = true)
    (h2 : scoreLe b c = true) : scoreLe a c = true := by
  rcases a with _ | x <;> rcases b with _ | y <;> rcases c with _ | z <;>
    simp [scoreLe] at h1 h2 ⊢
  exact le_trans h2 h1

instance : IsTotal (Record × Option ℚ) scoreRel :=
  ⟨fun p q => scoreLe_total p.2 q.2⟩

instance : IsTrans (Record × Option ℚ) scoreRel :=
  ⟨fun _ _ _ h1 h2 => scoreLe_trans h1 h2⟩

/-- The scored frame is sorted by the descending-nulls-last
comparator. -/
theorem rankRows_sorted (qv : List ℚ) (corpus : List Record) :
    List.Sorted scoreRel (rankRows qv corpus) :=
  List.sorted_insertionSort scoreRel _

/-- Every row of the sorted frame is a corpus record paired with its
own score. -/
theorem rankRows_mem {qv : List ℚ} {corpus : List Record}
    {p : Record × Option ℚ} (hp : p ∈ rankRows qv corpus) :
    ∃ r ∈ corpus, p = (r, scoreOf qv r) := by
  have hp' := (List.perm_insertionSort scoreRel
    (corpus.map fun r => (r, scoreOf qv r))).subset hp
  obtain ⟨r, hr, hrp⟩ := List.mem_map.mp hp'
  exact ⟨r, hr, hrp.symm⟩

/-- The per-element value of a false-masked element is absent. -/
theorem elemVal_false (env : Env) (t : Option String) :
    elemVal env (t, some false) = none := by
  rcases t with _ | s <;> rfl

/-- The per-element value of a masked element whose provider call fails
is absent. -/
theorem elemVal_provider_none (env : Env) (t : String)
    (h : env.provider t = none) : elemVal env (some t, some true) = none := by
  show (get_embedding env t).1 = none
  unfold get_embedding
  by_cases htok : MAX_TOKEN < env.tok t
  · rw [if_pos htok]
  · rw [if_neg htok]
    exact h

/-- A text in an element's call log is the element's own text, and the
element was masked. -/
theorem embedElem_call (env : Env) (p : Option String × Option Bool)
    (b : Option (List ℚ)) (ci : List String) (t : String)
    (h : embedElem env p = some (b, ci)) (ht : t ∈ ci) :
    p.1 = some t ∧ p.2 = some true := by
  obtain ⟨s, m⟩ := p
  rcases s with _ | s' <;> rcases m with _ | (_ | _) <;>
    simp [embedElem] at h
  · obtain ⟨-, hci⟩ := h
    subst hci
    simp at ht
  · obtain ⟨-, hci⟩ := h
    subst hci
    simp at ht
  · unfold get_embedding at h
    by_cases htok : MAX_TOKEN < env.tok s'
    · rw [if_pos htok] at h
      obtain ⟨-, hci⟩ := (Prod.mk.injEq _ _ _ _).mp h.symm
      rw [hci] at ht
      simp at ht
    · rw [if_neg htok] at h
      obtain ⟨-, hci⟩ := (Prod.mk.injEq _ _ _ _).mp h.symm
      rw [hci] at ht
      simp at ht
      exact ⟨by rw [ht], rfl⟩

/-- An environment with a constant token count and a constant provider
answer, for concrete evaluations. -/
def envT (n : Nat) (v : Option (List ℚ)) : Env :=
  ⟨fun _ => n, fun _ => v⟩

/-- A record with an allow-listed tag and no embedding. -/
def rQM : Record := ⟨1, some "t1", some "b1", some "<quantum-mechanics>", none⟩

/-- A record with only a non-allow-listed tag and no embedding. -/
def rGD : Record := ⟨2, some "t2", some "b2", some "<game-design>", none⟩

/-- A record with an allow-listed tag and an already-present
embedding. -/
def rTD : Record := ⟨3, some "t3", some "b3", some "<thermodynamics>", some [1]⟩

/-- A small corpus with one enriched and one to-enrich record. -/
def corpusA : List Record := [rTD, rQM]

/-- What `brew` writes for `corpusA` when the provider answers `[2]`. -/
def outA : List Record :=
  [rTD, ⟨1, some "t1", some "b1", some "<quantum-mechanics>", some [2]⟩]

/-- C1: Write-once: on any run of `brew` that produces an output, every
record whose embedding was present beforehand keeps the identical
embedding, regardless of its tags, eligibility or mask value; no
present embedding moves back to absent or to a different vector. -/
theorem brew_write_once (env : Env) (corpus out : List Record)
    (cs : List String) (h : brew env corpus = some (out, cs)) :
    out.length = corpus.length ∧
    ∀ (i : ℕ) (hc : i < corpus.length) (ho : i < out.length) (v : List ℚ),
      (corpus.get ⟨i, hc⟩).embeddings = some v →
      (out.get ⟨i, ho⟩).embeddings = some v := by
  rcases brew_some_char env corpus out cs h with ⟨-, rfl, -⟩ | ⟨-, rfl, -⟩
  · exact ⟨rfl, fun i hc ho v hv => hv⟩
  · constructor
    · simp
    · intro i hc ho v hv
      have hm : (corpus.map (rowNext env)).get ⟨i, ho⟩ =
          rowNext env (corpus.get ⟨i, hc⟩) := by
        simp [List.get_eq_getElem, List.getElem_map]
      rw [hm]
      show coalesce (corpus.get ⟨i, hc⟩).embeddings _ = some v
      rw [hv]
      rfl

/-- Closed check for C1 at a concrete input: the record with a present
embedding `[1]` still carries `[1]` after a run that enriches its
neighbour. -/
theorem brew_write_once_witness :
    brew (envT 0 (some [2])) corpusA = some (outA, ["Title: t1 Body: b1"]) ∧
    (corpusA.get ⟨0, by decide⟩).embeddings = some [1] ∧
    (outA.get ⟨0, by decide⟩).embeddings = some [1] := by
  have hb : brew (envT 0 (some [2])) corpusA =
      some (outA, ["Title: t1 Body: b1"]) := by
    simp only [brew, get_embeddings_eq]
    decide
  exact ⟨hb, by decide,
    (brew_write_once _ _ _ _ hb).2 0 (by decide) (by decide) [1] (by decide)⟩

/-- C2: Coalesce merge rule: on a run of `brew` that actually invokes
the scheduler, the next embedding of each record, independently, is the
stored one if present, else the freshly computed one (`elemVal` of the
record's `(combined, mask)` pair) if present, else absent. -/
theorem brew_coalesce_rule (env : Env) (corpus out : List Record)
    (cs : List String) (h : brew env corpus = some (out, cs))
    (hw : worksetEmpty corpus = false) :
    ∀ (i : ℕ) (hc : i < corpus.length) (ho : i < out.length),
      (∀ v, (corpus.get ⟨i, hc⟩).embeddings = some v →
        (out.get ⟨i, ho⟩).embeddings = some v) ∧
      ((corpus.get ⟨i, hc⟩).embeddings = none →
        ∀ w, elemVal env (rowPair (corpus.get ⟨i, hc⟩)) = some w →
        (out.get ⟨i, ho⟩).embeddings = some w) ∧
      ((corpus.get ⟨i, hc⟩).embeddings = none →
        elemVal env (rowPair (corpus.get ⟨i, hc⟩)) = none →
        (out.get ⟨i, ho⟩).embeddings = none) := by
  rcases brew_some_char env corpus out cs h with ⟨hw', -, -⟩ | ⟨-, rfl, -⟩
  · rw [hw'] at hw
    exact absurd hw (by simp)
  · intro i hc ho
    have hm : (corpus.map (rowNext env)).get ⟨i, ho⟩ =
        rowNext env (corpus.get ⟨i, hc⟩) := by
      simp [List.get_eq_getElem, List.getElem_map]
    refine ⟨?_, ?_, ?_⟩
    · intro v hv
      rw [hm]
      show coalesce (corpus.get ⟨i, hc⟩).embeddings _ = some v
      rw [hv]
      rfl
    · intro hv w hw'
      rw [hm]
      show coalesce (corpus.get ⟨i, hc⟩).embeddings _ = some w
      rw [hv, hw']
      rfl
    · intro hv hw'
      rw [hm]
      show coalesce (corpus.get ⟨i, hc⟩).embeddings _ = none
      rw [hv, hw']
      rfl

/-- Closed check for C2 at a concrete input: the present row keeps its
value, the absent eligible row takes the fresh one. -/
theorem brew_coalesce_rule_witness :
    brew (envT 0 (some [2])) corpusA = some (outA, ["Title: t1 Body: b1"]) ∧
    worksetEmpty corpusA = false ∧
    (outA.get ⟨0, by decide⟩).embeddings = some [1] ∧
    (outA.get ⟨1, by decide⟩).embeddings = some [2] := by
  have hb : brew (envT 0 (some [2])) corpusA =
      some (outA, ["Title: t1 Body: b1"]) := by
    simp only [brew, get_embeddings_eq]
    decide
  refine ⟨hb, by decide, ?_, ?_⟩
  · exact (brew_coalesce_rule _ _ _ _ hb (by decide) 0 (by decide)
      (by decide)).1 [1] (by decide)
  · exact (brew_coalesce_rule _ _ _ _ hb (by decide) 1 (by decide)
      (by decide)).2.1 (by decide) [2] (by decide)

/-- C6: Empty-workset short-circuit: when no record is both eligible
and missing its embedding, `brew` succeeds, makes zero provider calls,
and the written corpus is the input corpus unchanged. -/
theorem empty_workset_short_circuit (env : Env) (corpus : List Record)
    (h : ∀ r ∈ corpus, ¬ filtering r = some true) :
    brew env corpus = some (corpus, []) := by
  have hw : worksetEmpty corpus = true := by
    unfold worksetEmpty
    rw [List.filter_eq_nil_iff.mpr (by
      intro a ha
      simp [h a ha])]
    rfl
  simp [brew, hw]

/-- Closed check for C6 at a concrete input: every eligible record
already embedded, one record ineligible and absent. -/
theorem empty_workset_short_circuit_witness :
    (∀ r ∈ [rTD, rGD], ¬ filtering r = some true) ∧
    brew (envT 0 (some [2])) [rTD, rGD] = some ([rTD, rGD], []) :=
  ⟨by decide, empty_workset_short_circuit _ _ (by decide)⟩

/-- C7: Idempotence: a second `brew` run on the output of a successful
run, against the identical external environment, reproduces that output
exactly. -/
theorem brew_idempotent (env : Env) (corpus out : List Record)
    (cs : List String) (h : brew env corpus = some (out, cs)) :
    ∃ cs2, brew env out = some (out, cs2) := by
  rcases brew_some_char env corpus out cs h with ⟨hw, rfl, -⟩ | ⟨-, rfl, hok⟩
  · exact ⟨[], by simp [brew, hw]⟩
  · cases hw2 : worksetEmpty (corpus.map (rowNext env)) with
    | true => exact ⟨[], by simp [brew, hw2]⟩
    | false =>
      have hok2 : ∀ s ∈ corpus.map (rowNext env),
          embedElem env (rowPair s) ≠ none := by
        intro s hs
        obtain ⟨r, hr, rfl⟩ := List.mem_map.mp hs
        exact (rowNext_fix env r (hok r hr)).2
      obtain ⟨cs2, hcs2⟩ := brew_run env _ hw2 hok2
      refine ⟨cs2, ?_⟩
      rw [hcs2]
      have hfix : (corpus.map (rowNext env)).map (rowNext env) =
          corpus.map (rowNext env) := by
        rw [List.map_map]
        exact List.map_congr_left fun r hr => (rowNext_fix env r (hok r hr)).1
      rw [hfix]

/-- Closed check for C7 at a concrete input: rerunning `brew` on the
enriched output is a no-op. -/
theorem brew_idempotent_witness :
    brew (envT 0 (some [2])) corpusA = some (outA, ["Title: t1 Body: b1"]) ∧
    (∃ cs2, brew (envT 0 (some [2])) outA = some (outA, cs2)) := by
  have hb : brew (envT 0 (some [2])) corpusA =
      some (outA, ["Title: t1 Body: b1"]) := by
    simp only [brew, get_embeddings_eq]
    decide
  exact ⟨hb, brew_idempotent _ _ _ _ hb⟩

/-- C4: Token guard: a text whose token count exceeds the 8100 ceiling
makes `get_embedding` return absent with no provider invocation; a text
within the ceiling is sent to the provider (and the result is whatever
the provider answers). -/
theorem token_guard (env : Env) (input : String) :
    (MAX_TOKEN < env.tok input → get_embedding env input = (none, [])) ∧
    (env.tok input ≤ MAX_TOKEN →
      get_embedding env input = (env.provider input, [input])) := by
  constructor
  · intro h
    simp [get_embedding, h]
  · intro h
    simp [get_embedding, Nat.not_lt.mpr h]

/-- Closed check for C4: a 9000-token text is skipped without a call; a
0-token text is sent. -/
theorem token_guard_witness :
    MAX_TOKEN < (envT 9000 (some [1])).tok "x" ∧
    get_embedding (envT 9000 (some [1])) "x" = (none, []) ∧
    get_embedding (envT 0 (some [1])) "x" = (some [1], ["x"]) :=
  ⟨by decide, (token_guard _ "x").1 (by decide),
    (token_guard _ "x").2 (by decide)⟩

/-- C3: Scheduler alignment: a successful `get_embeddings` run over
equal-length text and mask columns yields one output per input in the
same order: element `i` of the output is exactly the embedding result
of element `i` of the input (the token-guarded provider result of its
own text when true-masked, absent otherwise); every false-masked
element resolves to absent, and every text in the provider-call log is
the text of some true-masked element — false-masked elements are never
sent. -/
theorem scheduler_alignment (env : Env) (texts : List (Option String))
    (mask : List (Option Bool)) (out : List (Option (List ℚ)))
    (cs : List String) (hlen : texts.length = mask.length)
    (h : get_embeddings env texts mask = some (out, cs)) :
    out.length = texts.length ∧
    (∀ (i : ℕ) (ht : i < texts.length) (hm : i < mask.length)
      (ho : i < out.length),
      out.get ⟨i, ho⟩ = elemVal env (texts.get ⟨i, ht⟩, mask.get ⟨i, hm⟩)) ∧
    (∀ (i : ℕ) (ht : i < texts.length) (hm : i < mask.length)
      (ho : i < out.length),
      mask.get ⟨i, hm⟩ = some false → out.get ⟨i, ho⟩ = none) ∧
    (∀ t ∈ cs, ∃ (i : ℕ) (ht : i < texts.length) (hm : i < mask.length),
      mask.get ⟨i, hm⟩ = some true ∧ texts.get ⟨i, ht⟩ = some t) := by
  rw [get_embeddings_eq] at h
  have hzlen : (texts.zip mask).length = texts.length := by
    simp [List.length_zip, hlen]
  obtain ⟨hval, -⟩ := embedAll_some_val env h
  subst hval
  have halign : ∀ (i : ℕ) (ht : i < texts.length) (hm : i < mask.length)
      (ho : i < ((texts.zip mask).map (elemVal env)).length),
      ((texts.zip mask).map (elemVal env)).get ⟨i, ho⟩ =
        elemVal env (texts.get ⟨i, ht⟩, mask.get ⟨i, hm⟩) := by
    intro i ht hm ho
    rw [List.get_eq_getElem, List.getElem_map, List.getElem_zip]
    have h1 : texts[i] = texts.get ⟨i, ht⟩ := by
      simp [List.get_eq_getElem]
    have h2 : mask[i] = mask.get ⟨i, hm⟩ := by
      simp [List.get_eq_getElem]
    rw [h1, h2]
  refine ⟨by simp [hzlen], halign, ?_, ?_⟩
  · intro i ht hm ho hfalse
    rw [halign i ht hm ho, hfalse, elemVal_false]
  · intro t ht
    obtain ⟨p, hp, b, ci, hci, hti⟩ := embedAll_calls _ h ht
    obtain ⟨hp1, hp2⟩ := embedElem_call env p b ci t hci hti
    obtain ⟨n, hn, hnp⟩ := List.mem_iff_getElem.mp hp
    have hnt : n < texts.length := hzlen ▸ hn
    have hnm : n < mask.length := by
      rw [hlen] at hnt
      exact hnt
    refine ⟨n, hnt, hnm, ?_, ?_⟩
    · rw [List.get_eq_getElem]
      have : (texts.zip mask)[n] = (texts[n], mask[n]) := List.getElem_zip
      rw [this] at hnp
      rw [show mask[n] = p.2 from congrArg Prod.snd hnp]
      exact hp2
    · rw [List.get_eq_getElem]
      have : (texts.zip mask)[n] = (texts[n], mask[n]) := List.getElem_zip
      rw [this] at hnp
      rw [show texts[n] = p.1 from congrArg Prod.fst hnp]
      exact hp1

/-- Closed check for C3 at a concrete input: one masked and one
unmasked element; position 0 carries exactly the embedding result of
its own masked text, position 1 resolves to absent. -/
theorem scheduler_alignment_witness :
    get_embeddings (envT 0 (some [2])) [some "a", some "b"]
      [some true, some false] = some ([some [2], none], ["a"]) ∧
    ([some true, some false].get ⟨1, by decide⟩ = some false) ∧
    (([some [2], none].get ⟨0, by decide⟩ : Option (List ℚ)) =
      elemVal (envT 0 (some [2])) (some "a", some true)) ∧
    ([some [2], none].get ⟨1, by decide⟩ : Option (List ℚ)) = none := by
  have hg : get_embeddings (envT 0 (some [2])) [some "a", some "b"]
      [some true, some false] = some ([some [2], none], ["a"]) := by
    rw [get_embeddings_eq]
    decide
  exact ⟨hg, by decide,
    (scheduler_alignment _ _ _ _ _ (by decide) hg).2.1 0 (by decide)
      (by decide) (by decide),
    (scheduler_alignment _ _ _ _ _ (by decide) hg).2.2.1 1 (by decide)
      (by decide) (by decide) (by decide)⟩

/-- C5: Per-item failure containment: when every mask is non-null and
every masked text is present, the scheduler returns a result (no error
escapes the batch); each element's result is a function of that element
alone, and in particular a masked element whose provider call fails
comes back absent while every other element still gets its own
result. -/
theorem failure_containment (env : Env) (texts : List (Option String))
    (mask : List (Option Bool))
    (hwf : ∀ (i : ℕ) (hm : i < mask.length),
      mask.get ⟨i, hm⟩ ≠ none ∧
      (mask.get ⟨i, hm⟩ = some true →
        ∀ (ht : i < texts.length), texts.get ⟨i, ht⟩ ≠ none)) :
    ∃ out cs, get_embeddings env texts mask = some (out, cs) ∧
      (∀ (i : ℕ) (ht : i < texts.length) (hm : i < mask.length)
        (ho : i < out.length),
        out.get ⟨i, ho⟩ = elemVal env (texts.get ⟨i, ht⟩, mask.get ⟨i, hm⟩)) ∧
      (∀ (i : ℕ) (ht : i < texts.length) (hm : i < mask.length)
        (ho : i < out.length) (t : String),
        texts.get ⟨i, ht⟩ = some t → mask.get ⟨i, hm⟩ = some true →
        env.provider t = none → out.get ⟨i, ho⟩ = none) := by
  have hok : ∀ p ∈ texts.zip mask, embedElem env p ≠ none := by
    intro p hp hcon
    obtain ⟨n, hn, hnp⟩ := List.mem_iff_getElem.mp hp
    have hn' := hn
    rw [List.length_zip] at hn'
    have hnt : n < texts.length := lt_of_lt_of_le hn' (min_le_left _ _)
    have hnm : n < mask.length := lt_of_lt_of_le hn' (min_le_right _ _)
    have hzip : (texts.zip mask)[n] = (texts[n], mask[n]) := List.getElem_zip
    rw [hzip] at hnp
    rw [embedElem_none_iff] at hcon
    rcases hcon with hc | ⟨hc1, hc2⟩
    · exact (hwf n hnm).1 (by
        rw [List.get_eq_getElem]
        rw [show mask[n] = p.2 from congrArg Prod.snd hnp]
        exact hc)
    · refine (hwf n hnm).2 ?_ hnt ?_
      · rw [List.get_eq_getElem]
        rw [show mask[n] = p.2 from congrArg Prod.snd hnp]
        exact hc1
      · rw [List.get_eq_getElem]
        rw [show texts[n] = p.1 from congrArg Prod.fst hnp]
        exact hc2
  obtain ⟨cs, hcs⟩ := embedAll_total_val env (texts.zip mask) hok
  refine ⟨(texts.zip mask).map (elemVal env), cs, ?_, ?_, ?_⟩
  · rw [get_embeddings_eq]
    exact hcs
  · intro i ht hm ho
    rw [List.get_eq_getElem, List.getElem_map, List.getElem_zip]
    have h1 : texts[i] = texts.get ⟨i, ht⟩ := by
      simp [List.get_eq_getElem]
    have h2 : mask[i] = mask.get ⟨i, hm⟩ := by
      simp [List.get_eq_getElem]
    rw [h1, h2]
  · intro i ht hm ho t htext hmask hfail
    rw [List.get_eq_getElem, List.getElem_map, List.getElem_zip]
    have h1 : texts[i] = some t := by
      simpa [List.get_eq_getElem] using htext
    have h2 : mask[i] = some true := by
      simpa [List.get_eq_getElem] using hmask
    rw [h1, h2]
    exact elemVal_provider_none env t hfail

/-- Closed check for C5 at a concrete input: the provider fails on the
masked first element, which comes back absent; the batch still
succeeds and the unmasked second element gets its own (absent)
result. -/
theorem failure_containment_witness :
    (∃ out cs,
      get_embeddings (envT 0 none) [some "a", some "b"]
        [some true, some false] = some (out, cs)) ∧
    get_embeddings (envT 0 none) [some "a", some "b"]
      [some true, some false] = some ([none, none], ["a"]) := by
  obtain ⟨out, cs, hg, -, -⟩ := failure_containment (envT 0 none)
    [some "a", some "b"] [some true, some false] (by
      intro i hm
      have h2 : i < 2 := by simpa using hm
      interval_cases i <;> exact ⟨by simp, fun h ht => by simp⟩)
  refine ⟨⟨out, cs, hg⟩, ?_⟩
  rw [get_embeddings_eq]
  decide

/-- C10: Implicit scheduler precondition: a true-masked element whose
text is null makes `get_embeddings` panic (the whole batch aborts)
rather than skip the element. -/
theorem masked_null_text_panics (env : Env) (texts : List (Option String))
    (mask : List (Option Bool)) (i : ℕ) (ht : i < texts.length)
    (hm : i < mask.length) (htext : texts.get ⟨i, ht⟩ = none)
    (hmask : mask.get ⟨i, hm⟩ = some true) :
    get_embeddings env texts mask = none := by
  rw [get_embeddings_eq]
  have hz : i < (texts.zip mask).length := by
    rw [List.length_zip]
    exact lt_min ht hm
  have hp : (texts.zip mask).get ⟨i, hz⟩ = (none, some true) := by
    simp only [List.get_eq_getElem, List.getElem_zip, Prod.mk.injEq]
    constructor
    · simpa [List.get_eq_getElem] using htext
    · simpa [List.get_eq_getElem] using hmask
  have hmem : ((none : Option String), some true) ∈ texts.zip mask := by
    rw [← hp]
    exact List.get_mem _ _ _
  exact embedAll_none_of_mem _ hmem rfl

/-- Closed check for C10: a single null-texted, true-masked element
panics the batch. -/
theorem masked_null_text_panics_witness :
    ([(none : Option String)].get ⟨0, by decide⟩ = none) ∧
    ([some true].get ⟨0, by decide⟩ = some true) ∧
    get_embeddings (envT 0 (some [1])) [none] [some true] = none :=
  ⟨by decide, by decide,
    masked_null_text_panics _ _ _ 0 (by decide) (by decide)
      (by decide) (by decide)⟩

/-- C9: Query-embedding failure is fatal to the search request: if the
query text exceeds the token ceiling or the provider call for it fails,
`search` produces no result rows at all (the `unwrap` panics the
request), rather than a partial ranking. -/
theorem query_failure_fatal (env : Env) (corpus : List Record) (q : String)
    (h : MAX_TOKEN < env.tok q ∨ env.provider q = none) :
    search env corpus q = none := by
  rcases h with h | h
  · simp [search, get_embedding, h]
  · by_cases htok : MAX_TOKEN < env.tok q
    · simp [search, get_embedding, htok]
    · simp [search, get_embedding, htok, h]

/-- Closed check for C9: an over-long query and a failing provider both
kill the whole search. -/
theorem query_failure_fatal_witness :
    MAX_TOKEN < (envT 9000 (some [1])).tok "q" ∧
    search (envT 9000 (some [1])) [rTD] "q" = none ∧
    search (envT 0 none) [rTD] "q" = none :=
  ⟨by decide,
    query_failure_fatal _ [rTD] "q" (Or.inl (by decide)),
    query_failure_fatal _ [rTD] "q" (Or.inr (by decide))⟩

/-- C8: Ranking correctness: in the rows returned by a successful
`search`, any row with a strictly greater present score (the dot
product of the record's embedding with the query embedding) is placed
strictly earlier; rows with an absent score are placed after every row
with a present one; and every displayed row is a corpus record carrying
exactly the score `dot embedding query`. -/
theorem search_ranking (env : Env) (corpus : List Record) (q : String)
    (qv : List ℚ) (rows : List Row)
    (hq : (get_embedding env q).1 = some qv)
    (hs : search env corpus q = some rows) :
    (∀ (i j : Fin rows.length) (sA sB : ℚ),
      (rows.get i).score = some sA → (rows.get j).score = some sB →
      sB < sA → (i : ℕ) < (j : ℕ)) ∧
    (∀ (i j : Fin rows.length) (s : ℚ),
      (rows.get i).score = none → (rows.get j).score = some s →
      (j : ℕ) < (i : ℕ)) ∧
    (∀ (k : Fin rows.length), ∃ r ∈ corpus,
      rows.get k = { id := QUESTION_URL ++ toString r.id, title := r.title,
                     score := r.embeddings.map fun e => dot e qv }) := by
  unfold search at hs
  rw [hq] at hs
  simp only [Option.some.injEq] at hs
  subst hs
  have hpw : List.Pairwise (fun a b : Row => scoreLe a.score b.score = true)
      (((rankRows qv corpus).map toRow).take 20) := by
    refine List.Pairwise.sublist (List.take_sublist _ _) ?_
    refine (List.pairwise_map).mpr ?_
    exact rankRows_sorted qv corpus
  have hg := List.pairwise_iff_get.mp hpw
  refine ⟨?_, ?_, ?_⟩
  · intro i j sA sB hA hB hlt
    by_contra hc
    push_neg at hc
    rcases Nat.eq_or_lt_of_le hc with heq | hjl
    · have : i = j := Fin.ext heq.symm
      subst this
      rw [hA] at hB
      exact absurd (Option.some.injEq _ _ ▸ hB) (by
        intro hsb
        rw [← hsb] at hlt
        exact lt_irrefl _ hlt)
    · have := hg j i hjl
      rw [hB, hA] at this
      simp [scoreLe] at this
      exact absurd (lt_of_lt_of_le hlt this) (lt_irrefl _)
  · intro i j s hA hB
    by_contra hc
    push_neg at hc
    rcases Nat.eq_or_lt_of_le hc with heq | hil
    · have : j = i := Fin.ext heq.symm
      subst this
      rw [hA] at hB
      exact Option.noConfusion hB
    · have := hg i j hil
      rw [hA, hB] at this
      simp [scoreLe] at this
  · intro k
    have hk : (((rankRows qv corpus).map toRow).take 20).get k ∈
        ((rankRows qv corpus).map toRow).take 20 := List.get_mem _ _ _
    have hk2 := (List.take_sublist 20 _).subset hk
    obtain ⟨p, hp, hpk⟩ := List.mem_map.mp hk2
    obtain ⟨r, hr, hpr⟩ := rankRows_mem hp
    refine ⟨r, hr, ?_⟩
    rw [← hpk, hpr]
    rfl

/-- Input corpus for the closed ranking check: present scores 1 and 2,
one absent embedding. -/
def corpus8 : List Record :=
  [⟨1, some "a", some "b", none, some [1]⟩,
   ⟨2, some "c", some "d", none, some [2]⟩,
   ⟨3, some "e", some "f", none, none⟩]

/-- The rows `search` displays for `corpus8` under the environment
`envT 0 (some [1])`. -/
def rows8 : List Row :=
  [⟨QUESTION_URL ++ "2", some "c", some 2⟩,
   ⟨QUESTION_URL ++ "1", some "a", some 1⟩,
   ⟨QUESTION_URL ++ "3", some "e", none⟩]

/-- Closed check for C8: the score-2 row is placed before the score-1
row, and the absent-score row after the score-1 row. -/
theorem search_ranking_witness :
    (get_embedding (envT 0 (some [1])) "q").1 = some [1] ∧
    search (envT 0 (some [1])) corpus8 "q" = some rows8 ∧
    (rows8.get ⟨0, by decide⟩).score = some 2 ∧
    (rows8.get ⟨1, by decide⟩).score = some 1 ∧
    (rows8.get ⟨2, by decide⟩).score = none ∧
    ((0 : ℕ) < (1 : ℕ) ∧ (1 : ℕ) < (2 : ℕ)) := by
  have hq : (get_embedding (envT 0 (some [1])) "q").1 = some [1] := by decide
  have hs : search (envT 0 (some [1])) corpus8 "q" = some rows8 := by
    with_unfolding_all decide
  refine ⟨hq, hs, by decide, by decide, by decide, ?_, ?_⟩
  · exact (search_ranking _ corpus8 "q" [1] rows8 hq hs).1
      ⟨0, by decide⟩ ⟨1, by decide⟩ 2 1 (by decide) (by decide) (by decide)
  · exact (search_ranking _ corpus8 "q" [1] rows8 hq hs).2.1
      ⟨2, by decide⟩ ⟨1, by decide⟩ 1 (by decide) (by decide)

end Ada
